import Mathlib

/-!
Verification of the message-history reduction and routing core of a
multi-agent question-answering system.

The development embeds, as executable Lean definitions:
* the message data model (system/human/AI/tool messages with optional
  `name`, `tool_calls` and `tool_call_id` fields);
* the per-agent history-reduction hook produced by
  `create_clean_agent_messages_hook` (src/agents/__init__.py);
* the final-answer extraction hook `extract_final_answer_hook`
  (src/agents/orchestrator.py);
* the orchestrator termination tool `provide_final_answer`
  (src/tools/orchestrator_tools.py);
* the visual agent's multimodal pre-model formatting
  `_format_messages_for_multimodal_llm` (src/agents/visual.py);
* the top-level `BasicAgent.__call__` result shaping (src/app.py);
* the workflow driver state machine, modelled from the specification
  (the driver itself is provided by the external langgraph_supervisor
  library and is not part of the repository's sources).

Message `content` is modelled as text.  All code paths embedded here
treat content as a string (regex searches, slicing, concatenation); the
structured multimodal content produced by the visual formatting step is
modelled by a separate content type for the formatted view, which is
ephemeral and never re-enters the conversation log.
-/

namespace Gaia

/-- Variant tag of a conversational message (System/Human/AI/Tool). -/
inductive Role where
  | system
  | human
  | ai
  | tool
deriving DecidableEq, Repr

/-- One tool invocation requested by an AI message: `{id, name, arguments}`. -/
structure ToolCall where
  id : String
  name : String
  args : List (String × String)
deriving DecidableEq, Repr

/-- A conversational message.  `content` is text; `name` optionally records
which agent produced the message; `tool_calls` is meaningful on AI messages;
`tool_call_id` is meaningful on Tool messages. -/
structure Message where
  role : Role
  content : String
  name : Option String
  tool_calls : List ToolCall
  tool_call_id : Option String
deriving DecidableEq, Repr

/-- Plain human message, as constructed by `HumanMessage(content=...)`:
no name, no tool calls. -/
def humanMsg (content : String) : Message :=
  ⟨Role.human, content, none, [], none⟩

/-- Plain AI message with text content only. -/
def aiMsg (content : String) : Message :=
  ⟨Role.ai, content, none, [], none⟩

/-! ### Character-level utilities

Python string operations used by the hooks (`str.strip`, `str.strip('"')`,
case-insensitive `re.search`) are modelled on the underlying character
lists. -/

/-- Lower-cased character sequence of a string, modelling the
case-insensitive matching performed by `re.IGNORECASE`. -/
def lowerChars (s : String) : List Char :=
  s.data.map Char.toLower

/-- Python `str.strip()` on a character list: remove leading and trailing
whitespace. -/
def pyStripL (l : List Char) : List Char :=
  ((l.dropWhile Char.isWhitespace).reverse.dropWhile Char.isWhitespace).reverse

/-- Python `str.strip('"')` on a character list: remove all leading and
trailing double-quote characters. -/
def stripQuotesL (l : List Char) : List Char :=
  ((l.dropWhile (· == '"')).reverse.dropWhile (· == '"')).reverse

/-- Python `str.strip()`. -/
def pyStrip (s : String) : String :=
  String.mk (pyStripL s.data)

/-- Leftmost index (counting from `k`) at which `pat` occurs in `l`,
modelling the scan performed by `re.search`. -/
def findCIAux (l pat : List Char) (k : Nat) : Option Nat :=
  match l with
  | [] => if pat.isEmpty then some k else none
  | _ :: rest =>
    if pat.isPrefixOf l then some k else findCIAux rest pat (k + 1)

/-- Index of the first case-insensitive occurrence of the (lower-case)
pattern `pat` in `s`, or `none` when `pat` does not occur. -/
def findCI (s : String) (pat : List Char) : Option Nat :=
  findCIAux (lowerChars s) pat 0

/-- The delegation-argument marker searched for by the history-reduction
hook (`r"Action Input:\s*(.*)"` with `re.IGNORECASE | re.DOTALL`). -/
def actionInputMarker : List Char := "action input:".data

/-- The terminal marker searched for by the final-answer hook
(`r"final answer:(.*)"` with `re.IGNORECASE | re.DOTALL`). -/
def finalAnswerMarker : List Char := "final answer:".data

/-- Captured delegation payload of an AI message's content:
`match.group(1).strip().strip('"')` for the first case-insensitive
occurrence of "Action Input:", or `none` when the marker is absent.
The greedy `\s*` followed by `strip()` amounts to trimming whitespace
around everything after the marker. -/
def actionInputPayload (s : String) : Option String :=
  match findCI s actionInputMarker with
  | some i =>
    some (String.mk (stripQuotesL (pyStripL (s.data.drop (i + actionInputMarker.length)))))
  | none => none

/-! ### History-reduction hook (src/agents/__init__.py) -/

/-- Position of the first System message in the log (the `for`/`break`
loop collecting `system_msg`). -/
def findFirstSysIdx : List Message → Option Nat
  | [] => none
  | m :: rest =>
    if m.role = Role.system then some 0
    else (findFirstSysIdx rest).map (· + 1)

/-- The first System message of the log, when present. -/
def firstSysMsg (messages : List Message) : Option Message :=
  (findFirstSysIdx messages).bind (messages[·]?)

/-- The reverse scan of step 2 of the hook, processing `(index, message)`
pairs from the most recent message backwards.  The accumulator carries
`delegated_content`, `effective_human_message` and
`start_index_for_agent_scratchpad`.  An AI message bearing the
"Action Input:" marker overrides any previously captured fallback and
stops the scan; a Human message is captured as fallback only when no
fallback was captured yet, and the scan continues. -/
def scanLoop : List (Nat × Message) → String → Option Message → Nat →
    String × Option Message × Nat
  | [], del, eff, st => (del, eff, st)
  | (i, m) :: rest, del, eff, st =>
    if m.role = Role.ai then
      match actionInputPayload m.content with
      | some p => (p, some (humanMsg p), i + 1)
      | none => scanLoop rest del eff st
    else if m.role = Role.human ∧ eff = none then
      scanLoop rest m.content (some m) (i + 1)
    else
      scanLoop rest del eff st

/-- Step 2 of the hook: effective input, effective Human message and
scratchpad start index for a log. -/
def findEffective (messages : List Message) : String × Option Message × Nat :=
  scanLoop messages.enum.reverse "" none 0

/-- Step 3 of the hook, for one indexed message: kept when its name matches
the agent, or when it is an AI message with no name; the first System
message (already emitted at the front) is skipped by position, matching the
object-identity check of the source.  (The source also skips the object
`effective_human_message`, but that object is either freshly constructed or
located before the scratchpad start, so that check never fires.) -/
def keepForAgent (agent_name : String) (sysIdx? : Option Nat) :
    Nat × Message → Option Message
  | (i, m) =>
    if sysIdx? = some i then none
    else if m.name = some agent_name then some m
    else if m.role = Role.ai ∧ m.name = none then some m
    else none

/-- Result of the history-reduction hook: the scoped message view and the
updated `input` field. -/
structure ReduceResult where
  messages : List Message
  input : String
deriving DecidableEq, Repr

/-- The history-reduction hook produced by
`create_clean_agent_messages_hook(agent_name)` applied to the `messages`
of the state: emits the first System message, then the effective Human
message (delegated payload or fallback), then the agent's own scratchpad
messages, and returns the effective input text. -/
def create_clean_agent_messages_hook (agent_name : String)
    (messages : List Message) : ReduceResult :=
  let sysIdx? := findFirstSysIdx messages
  let scan := findEffective messages
  let delegated := scan.1
  let eff? := scan.2.1
  let start := scan.2.2
  let kept := (messages.enum.drop start).filterMap (keepForAgent agent_name sysIdx?)
  { messages := (sysIdx?.bind (messages[·]?)).toList ++ eff?.toList ++ kept
    input := delegated }

/-! ### Final-answer extraction hook (src/agents/orchestrator.py) -/

/-- Post-model hook of the orchestrator: inspects only the last message;
when it is an AI message whose (non-empty) content contains the
case-insensitive marker "final answer:", returns the trimmed text after
the first occurrence of the marker as the `final_answer` state update;
otherwise returns no update (`none`). -/
def extract_final_answer_hook (messages : List Message) : Option String :=
  match messages.getLast? with
  | none => none
  | some m =>
    if m.role = Role.ai then
      if m.content = "" then none
      else
        match findCI m.content finalAnswerMarker with
        | some i =>
          some (String.mk (pyStripL (m.content.data.drop (i + finalAnswerMarker.length))))
        | none => none
    else none

/-! ### Orchestrator termination tool (src/tools/orchestrator_tools.py) -/

/-- The `provide_final_answer` tool: returns `f"Final Answer: {answer}"`. -/
def provide_final_answer (answer : String) : String :=
  "Final Answer: " ++ answer

/-! ### Visual agent pre-model formatting (src/agents/visual.py) -/

/-- Content of a message as handed to the multimodal model: either plain
text, or the two-part multimodal payload `[{"type": "text", ...},
{"type": "image_url", ...}]` injected for decoded images. -/
inductive VContent where
  | text (s : String)
  | imageParts (caption : String) (url : String) (detail : String)
deriving DecidableEq, Repr

/-- A message in the view handed to the multimodal model. -/
structure VMessage where
  role : Role
  content : VContent
  name : Option String
  tool_calls : List ToolCall
  tool_call_id : Option String
deriving DecidableEq, Repr

/-- Embedding of an unmodified log message into the multimodal view. -/
def toVMessage (m : Message) : VMessage :=
  ⟨m.role, VContent.text m.content, m.name, m.tool_calls, m.tool_call_id⟩

/-- Python substring containment (`pat in s`). -/
def containsSub : List Char → List Char → Bool
  | [], pat => pat.isEmpty
  | c :: rest, pat => pat.isPrefixOf (c :: rest) || containsSub rest pat

/-- Rewriting of one message of the cleaned view for the multimodal model:
a Tool message whose non-empty content contains "base64," is replaced by a
Human message carrying the extracted image as structured multimodal
content (or, when the content cannot be split as
`...data:image/<mime>;base64,<data>`, by a Human message reporting the
parse failure, matching the `IndexError` handler); every other message is
passed through unchanged. -/
def formatForVisual (m : Message) : VMessage :=
  if m.role = Role.tool ∧ m.content ≠ "" ∧ containsSub m.content.data "base64,".data then
    match (m.content.splitOn "data:image/")[1]? with
    | none =>
      ⟨Role.human,
       VContent.text ("Image data received but could not be parsed: " ++ m.content),
       none, [], none⟩
    | some seg =>
      match (seg.splitOn ";base64,")[1]? with
      | none =>
        ⟨Role.human,
         VContent.text ("Image data received but could not be parsed: " ++ m.content),
         none, [], none⟩
      | some b64 =>
        let mime := ((seg.splitOn ";base64,").headD "")
        ⟨Role.human,
         VContent.imageParts "Image successfully loaded:"
           ("data:image/" ++ mime ++ ";base64," ++ b64) "high",
         none, [], none⟩
  else toVMessage m

/-- The visual agent's pre-model hook `_format_messages_for_multimodal_llm`:
applies the shared cleaning hook for agent "visual", then drops the first
element of the cleaned view (`input_state["messages"][1:]`) and rewrites
base64-bearing Tool messages for the multimodal model.  Returns the
formatted view and the effective input. -/
def format_messages_for_multimodal_llm (messages : List Message) :
    List VMessage × String :=
  let input_state := create_clean_agent_messages_hook "visual" messages
  ((input_state.messages.drop 1).map formatForVisual, input_state.input)

/-! ### BasicAgent result shaping (src/app.py) -/

/-- The workflow state visible to `BasicAgent.__call__`. -/
structure AgentState where
  query : String
  messages : List Message
  final_answer : Option String
deriving DecidableEq, Repr

/-- The combined input content: the question, or the question annotated
with the provided file path. -/
def fullInputContent (question : String) (path : Option String) : String :=
  match path with
  | some p =>
    "The query relates to a file at '" ++ p ++
      "'. Please incorporate this context. Original query: " ++ question
  | none => question

/-- The initial workflow state seeded by `BasicAgent.__call__`. -/
def initialState (question : String) (path : Option String) : AgentState :=
  { query := fullInputContent question path
    messages := [humanMsg (fullInputContent question path)]
    final_answer := none }

/-- Fallback result of `BasicAgent.__call__` when the final state carries
no (truthy) `final_answer`: the last message's content when it is an AI
message, otherwise the fixed no-answer label. -/
def basicAgentFallback (final_state : AgentState) : String :=
  match final_state.messages.getLast? with
  | some m =>
    if m.role = Role.ai then m.content
    else "Workflow completed, but no clear answer was found."
  | none => "Workflow completed, but no clear answer was found."

/-- Result shaping of `BasicAgent.__call__` on the outcome of the workflow
invocation: a raised exception (`Except.error`) is converted into an
error-labelled string; a returned final state yields its `final_answer`
field when that is set and non-empty (Python truthiness), and the fallback
otherwise. -/
def basicAgentResult (outcome : Except String AgentState) : String :=
  match outcome with
  | Except.ok final_state =>
    match final_state.final_answer with
    | some a => if a = "" then basicAgentFallback final_state else a
    | none => basicAgentFallback final_state
  | Except.error e => "An error occurred while processing your request: " ++ e

/-- `BasicAgent.__call__`: seeds the initial state from the question and
optional file path, invokes the workflow (modelled as a function that
either returns a final state or raises), and shapes the result. -/
def basicAgentCall (workflow : AgentState → Except String AgentState)
    (question : String) (path : Option String) : String :=
  basicAgentResult (workflow (initialState question path))

/-! ### Workflow driver (state machine)

Modelled from the spec: the Workflow Driver itself is provided by the
external `langgraph_supervisor` library (`create_supervisor`, invoked by
`create_master_orchestrator_workflow` in src/agents/orchestrator.py) and
is not part of the repository's sources.  The state machine below follows
the specification's §4.2 (Delegation Extractor / Router), §4.3 (Sub-Agent
Execution Bubble) and §4.5 (Workflow Driver): delegation via
`delegate_to_<agent>` tool names, termination via `provide_final_answer`
or `NoOp`, exactly one Tool message appended per bubble run carrying the
originating call id, malformed delegations answered by an error Tool
response, and a remaining-steps counter.  Per §4.2/§9 only the first tool
call of a turn is honoured and turns with additional simultaneous tool
calls are out of the design's scope, so a model turn carries at most one
tool call. -/

/-- Character-level string prefix check (evaluates by kernel reduction,
unlike `String.startsWith`). -/
def strStartsWith (s pre : String) : Bool :=
  pre.data.isPrefixOf s.data

/-- Character-level drop of the first `n` characters of a string. -/
def strDropChars (s : String) (n : Nat) : String :=
  String.mk (s.data.drop n)

/-- Router decision for the last AI message (spec §4.2). -/
inductive RouteDecision where
  | delegate (agent : String) (args : List (String × String)) (callId : String)
  | finalAnswer (text : String)
  | noop
  | unknownTool (toolName : String) (callId : String)
deriving DecidableEq, Repr

/-- Modelled from the spec (§4.2): route on the first tool call of the
last AI message; no tool calls is `NoOp`; `provide_final_answer` carries
the `answer` argument; a `delegate_to_<agent>` name delegates to that
agent with the call's arguments and id; any other name is an error
condition, surfaced rather than dropped. -/
def route (m : Message) : RouteDecision :=
  match m.tool_calls with
  | [] => RouteDecision.noop
  | tc :: _ =>
    if tc.name = "provide_final_answer" then
      RouteDecision.finalAnswer ((tc.args.lookup "answer").getD "")
    else if strStartsWith tc.name "delegate_to_" then
      RouteDecision.delegate (strDropChars tc.name "delegate_to_".length) tc.args tc.id
    else
      RouteDecision.unknownTool tc.name tc.id

/-- Control phase of the driver (spec §4.5). -/
inductive Phase where
  | orchestrating
  | routing
  | subAgentRunning (agent : String) (callId : String)
  | terminated (answer : Option String)
deriving DecidableEq, Repr

/-- Driver state: the conversation log (append-only), the control phase
and the remaining-steps counter. -/
structure DriverState where
  log : List Message
  phase : Phase
  steps : Nat
deriving DecidableEq, Repr

/-- Tool message carrying a bubble result (or error result) tied to the
originating call id. -/
def toolMsg (content : String) (agent : Option String) (callId : String) : Message :=
  ⟨Role.tool, content, agent, [], some callId⟩

/-- Modelled from the spec (§4.3/§4.5): one transition of the Workflow
Driver.  An orchestrator model turn appends one AI message (at most one
tool call per turn, §4.2/§9) and moves to routing; routing consults the
Router on the just-appended AI message; a sub-agent bubble run appends
exactly one Tool message carrying the originating call id (failures are
converted to textual results through the same pathway, so the content is
arbitrary); an unknown tool name is answered by an error Tool response
fed back to the orchestrator; the steps counter exhausting forces
termination. -/
inductive Step : DriverState → DriverState → Prop where
  | modelTurn (log : List Message) (n : Nat) (m : Message)
      (hrole : m.role = Role.ai) (hcalls : m.tool_calls.length ≤ 1) :
      Step ⟨log, Phase.orchestrating, n + 1⟩ ⟨log ++ [m], Phase.routing, n⟩
  | outOfSteps (log : List Message) :
      Step ⟨log, Phase.orchestrating, 0⟩ ⟨log, Phase.terminated none, 0⟩
  | routeDelegate (log : List Message) (n : Nat) (m : Message)
      (ag : String) (args : List (String × String)) (cid : String)
      (hlast : log.getLast? = some m)
      (hroute : route m = RouteDecision.delegate ag args cid) :
      Step ⟨log, Phase.routing, n⟩ ⟨log, Phase.subAgentRunning ag cid, n⟩
  | routeFinal (log : List Message) (n : Nat) (m : Message) (t : String)
      (hlast : log.getLast? = some m)
      (hroute : route m = RouteDecision.finalAnswer t) :
      Step ⟨log, Phase.routing, n⟩ ⟨log, Phase.terminated (some t), n⟩
  | routeNoop (log : List Message) (n : Nat) (m : Message)
      (hlast : log.getLast? = some m)
      (hroute : route m = RouteDecision.noop) :
      Step ⟨log, Phase.routing, n⟩ ⟨log, Phase.terminated none, n⟩
  | routeUnknown (log : List Message) (n : Nat) (m : Message)
      (tn cid : String) (errText : String)
      (hlast : log.getLast? = some m)
      (hroute : route m = RouteDecision.unknownTool tn cid) :
      Step ⟨log, Phase.routing, n⟩
        ⟨log ++ [toolMsg errText none cid], Phase.orchestrating, n⟩
  | bubbleReport (log : List Message) (n : Nat) (ag cid : String)
      (resultText : String) :
      Step ⟨log, Phase.subAgentRunning ag cid, n⟩
        ⟨log ++ [toolMsg resultText (some ag) cid], Phase.orchestrating, n⟩

/-- Driver states reachable from the initial state: the log seeded with
one Human message carrying the user's query (spec §4.5), evolved by
driver transitions. -/
inductive Reachable : DriverState → Prop where
  | init (query : String) (n : Nat) :
      Reachable ⟨[humanMsg query], Phase.orchestrating, n⟩
  | step {s s' : DriverState} : Reachable s → Step s s' → Reachable s'

/-- Whether a message is a Tool message responding to call id `id`. -/
def isToolResponseTo (id : String) (m : Message) : Bool :=
  m.role == Role.tool && m.tool_call_id == some id

/-- Number of Tool messages in `seg` responding to call id `id`. -/
def respCount (seg : List Message) (id : String) : Nat :=
  (seg.filter (isToolResponseTo id)).length

/-- Whether a message is not an AI message (segment delimiter). -/
def notAI (m : Message) : Bool :=
  !(m.role == Role.ai)

/-- The pairing invariant on a log: for every AI message, each id of its
`tool_calls` appears exactly once among the Tool messages of the segment
up to the next AI message, whenever a next AI message has been appended;
for the last AI message of the log (whose deadline — the next AI turn —
has not arrived yet) it appears at most once in the remainder. -/
def pairedFrom : List Message → Bool
  | [] => true
  | m :: rest =>
    (if m.role = Role.ai then
      if rest.any (fun x => x.role == Role.ai) then
        m.tool_calls.all (fun tc => respCount (rest.takeWhile notAI) tc.id == 1)
      else
        m.tool_calls.all (fun tc => decide (respCount (rest.takeWhile notAI) tc.id ≤ 1))
    else true) && pairedFrom rest

/-- Strengthened invariant used at orchestrator-turn boundaries: every AI
message's every tool call, including the last one's, is answered exactly
once in its segment. -/
def allAnswered : List Message → Bool
  | [] => true
  | m :: rest =>
    (if m.role = Role.ai then
      m.tool_calls.all (fun tc => respCount (rest.takeWhile notAI) tc.id == 1)
    else true) && allAnswered rest

/-- Phase-indexed induction invariant of the driver: at orchestrator-turn
boundaries every issued call is answered; while a call is being routed or
executed, the log ends in the AI message that issued it and everything
before is answered; terminated logs satisfy the pairing invariant. -/
def Inv (s : DriverState) : Prop :=
  match s.phase with
  | Phase.orchestrating => allAnswered s.log = true
  | Phase.routing =>
    ∃ base a, s.log = base ++ [a] ∧ allAnswered base = true ∧
      a.role = Role.ai ∧ a.tool_calls.length ≤ 1
  | Phase.subAgentRunning _ cid =>
    ∃ base a tc, s.log = base ++ [a] ∧ allAnswered base = true ∧
      a.role = Role.ai ∧ a.tool_calls = [tc] ∧ tc.id = cid
  | Phase.terminated _ => pairedFrom s.log = true

/-- A message is a marker-bearing AI message: an AI message whose content
contains the "Action Input:" delegation marker. -/
def MarkerAI (m : Message) : Prop :=
  m.role = Role.ai ∧ (actionInputPayload m.content).isSome = true

/-- A concrete delegating AI turn used by the pairing witness. -/
def aiDelegTurn : Message :=
  ⟨Role.ai, "", none, [⟨"call1", "delegate_to_visual", [("query", "what is shown")]⟩], none⟩

/-- A concrete Human message carrying another agent's name, used to test
the history-scoping property. -/
def bobMsg : Message :=
  ⟨Role.human, "hi", some "bob", [], none⟩

/-- A concrete System message used in witnesses. -/
def sysMsgW : Message :=
  ⟨Role.system, "You are X", none, [], none⟩

/-- A concrete final state whose `final_answer` is the empty string. -/
def emptyAnswerState : AgentState :=
  ⟨"q", [aiMsg "done"], some ""⟩

/-- A concrete workflow returning a final state with a set answer. -/
def okWorkflowW : AgentState → Except String AgentState :=
  fun _ => Except.ok ⟨"q", [], some "42"⟩

/-- A concrete Tool message carrying base64 image data for the visual
agent. -/
def visToolMsg : Message :=
  ⟨Role.tool, "data:image/png;base64,AAA", some "visual", [], some "t1"⟩

/-- A concrete log for the visual agent witness. -/
def visLogW : List Message :=
  [aiMsg "Action Input: \"look\"", visToolMsg]

/-! ## Lemmas -/

theorem takeWhile_append_cons_of_neg {α : Type} (p : α → Bool) (l : List α)
    (a : α) (ys : List α) (h : p a = false) :
    (l ++ a :: ys).takeWhile p = l.takeWhile p := by
  induction l with
  | nil => simp [List.takeWhile_cons, h]
  | cons x l ih =>
    simp only [List.cons_append, List.takeWhile_cons, ih]

theorem notAI_eq_false_of_ai {m : Message} (h : m.role = Role.ai) :
    notAI m = false := by
  simp [notAI, h]

theorem respCount_nil (id : String) : respCount [] id = 0 := rfl

theorem pairedFrom_of_allAnswered : ∀ {l : List Message},
    allAnswered l = true → pairedFrom l = true := by
  intro l h
  induction l with
  | nil => rfl
  | cons m rest ih =>
    rw [allAnswered, Bool.and_eq_true] at h
    rw [pairedFrom, Bool.and_eq_true]
    refine ⟨?_, ih h.2⟩
    by_cases hai : m.role = Role.ai
    · have h1 := h.1
      rw [if_pos hai] at h1 ⊢
      by_cases hany : rest.any (fun x => x.role == Role.ai)
      · rw [if_pos hany]; exact h1
      · rw [if_neg hany]
        rw [List.all_eq_true] at h1 ⊢
        intro tc htc
        have := h1 tc htc
        rw [beq_iff_eq] at this
        simp [this]
    · rw [if_neg hai]

theorem pairedFrom_append_ai {l : List Message} {m : Message}
    (h : allAnswered l = true) (hm : m.role = Role.ai) :
    pairedFrom (l ++ [m]) = true := by
  induction l with
  | nil =>
    rw [List.nil_append, pairedFrom, Bool.and_eq_true]
    constructor
    · rw [if_pos hm]
      have : ¬ (([] : List Message).any (fun x => x.role == Role.ai) = true) := by simp
      rw [if_neg this]
      simp [respCount_nil]
    · rfl
  | cons x l ih =>
    rw [allAnswered, Bool.and_eq_true] at h
    rw [List.cons_append, pairedFrom, Bool.and_eq_true]
    refine ⟨?_, ih h.2⟩
    by_cases hx : x.role = Role.ai
    · have h1 := h.1
      rw [if_pos hx] at h1 ⊢
      have hseg : (l ++ [m]).takeWhile notAI = l.takeWhile notAI :=
        takeWhile_append_cons_of_neg notAI l m [] (notAI_eq_false_of_ai hm)
      have hany : (l ++ [m]).any (fun x => x.role == Role.ai) = true := by
        rw [List.any_append]
        simp [hm]
      rw [if_pos hany, hseg]
      exact h1
    · rw [if_neg hx]

theorem allAnswered_append_pair {l : List Message} {a t : Message} {tc : ToolCall}
    (h : allAnswered l = true) (ha : a.role = Role.ai)
    (hcalls : a.tool_calls = [tc]) (ht : t.role = Role.tool)
    (htid : t.tool_call_id = some tc.id) :
    allAnswered (l ++ [a, t]) = true := by
  induction l with
  | nil =>
    rw [List.nil_append, allAnswered, Bool.and_eq_true]
    constructor
    · rw [if_pos ha, hcalls]
      have hseg : ([t].takeWhile notAI) = [t] := by
        simp [List.takeWhile_cons, notAI, ht]
      rw [hseg]
      have hcount : respCount [t] tc.id = 1 := by
        simp [respCount, List.filter, isToolResponseTo, ht, htid]
      simp [hcount]
    · rw [allAnswered, Bool.and_eq_true]
      constructor
      · rw [if_neg (by rw [ht]; intro hc; exact Role.noConfusion hc)]
      · rfl
  | cons x l ih =>
    rw [allAnswered, Bool.and_eq_true] at h
    rw [List.cons_append, allAnswered, Bool.and_eq_true]
    refine ⟨?_, ih h.2⟩
    by_cases hx : x.role = Role.ai
    · have h1 := h.1
      rw [if_pos hx] at h1 ⊢
      have hseg : (l ++ a :: [t]).takeWhile notAI = l.takeWhile notAI :=
        takeWhile_append_cons_of_neg notAI l a [t] (notAI_eq_false_of_ai ha)
      rw [show (l ++ [a, t]) = l ++ a :: [t] from rfl, hseg]
      exact h1
    · rw [if_neg hx]

theorem route_delegate_calls {m : Message} {ag : String}
    {args : List (String × String)} {cid : String}
    (h : route m = RouteDecision.delegate ag args cid) :
    ∃ tc rest, m.tool_calls = tc :: rest ∧ tc.id = cid := by
  cases hc : m.tool_calls with
  | nil => simp [route, hc] at h
  | cons tc rest =>
    simp only [route, hc] at h
    split_ifs at h with h1 h2
    cases h
    exact ⟨tc, rest, rfl, rfl⟩

theorem route_unknown_calls {m : Message} {tn cid : String}
    (h : route m = RouteDecision.unknownTool tn cid) :
    ∃ tc rest, m.tool_calls = tc :: rest ∧ tc.id = cid := by
  cases hc : m.tool_calls with
  | nil => simp [route, hc] at h
  | cons tc rest =>
    simp only [route, hc] at h
    split_ifs at h with h1 h2
    cases h
    exact ⟨tc, rest, rfl, rfl⟩

theorem reachable_inv {s : DriverState} (hs : Reachable s) : Inv s := by
  induction hs with
  | init query n =>
    simp only [Inv]
    simp [allAnswered, humanMsg]
  | step hr hstep ih =>
    cases hstep with
    | modelTurn log n m hrole hcalls =>
      simp only [Inv] at ih ⊢
      exact ⟨log, m, rfl, ih, hrole, hcalls⟩
    | outOfSteps log =>
      simp only [Inv] at ih ⊢
      exact pairedFrom_of_allAnswered ih
    | routeDelegate log n m ag args cid hlast hroute =>
      simp only [Inv] at ih ⊢
      obtain ⟨base, a, hlog, hbase, hai, hlen⟩ := ih
      have hma : m = a := by
        rw [hlog, List.getLast?_concat] at hlast
        exact (Option.some_inj.mp hlast).symm
      subst hma
      obtain ⟨tc, rest, hcs, hid⟩ := route_delegate_calls hroute
      have hrest : rest = [] := by
        rw [hcs] at hlen
        simpa using hlen
      subst hrest
      exact ⟨base, m, tc, hlog, hbase, hai, hcs, hid⟩
    | routeFinal log n m t hlast hroute =>
      simp only [Inv] at ih ⊢
      obtain ⟨base, a, hlog, hbase, hai, _⟩ := ih
      rw [hlog]
      exact pairedFrom_append_ai hbase hai
    | routeNoop log n m hlast hroute =>
      simp only [Inv] at ih ⊢
      obtain ⟨base, a, hlog, hbase, hai, _⟩ := ih
      rw [hlog]
      exact pairedFrom_append_ai hbase hai
    | routeUnknown log n m tn cid errText hlast hroute =>
      simp only [Inv] at ih ⊢
      obtain ⟨base, a, hlog, hbase, hai, hlen⟩ := ih
      have hma : m = a := by
        rw [hlog, List.getLast?_concat] at hlast
        exact (Option.some_inj.mp hlast).symm
      subst hma
      obtain ⟨tc, rest, hcs, hid⟩ := route_unknown_calls hroute
      have hrest : rest = [] := by
        rw [hcs] at hlen
        simpa using hlen
      subst hrest
      rw [hlog, List.append_assoc]
      exact allAnswered_append_pair hbase hai hcs rfl (by simp [toolMsg, hid])
    | bubbleReport log n ag cid resultText =>
      simp only [Inv] at ih ⊢
      obtain ⟨base, a, tc, hlog, hbase, hai, hcs, hid⟩ := ih
      rw [hlog, List.append_assoc]
      exact allAnswered_append_pair hbase hai hcs rfl (by simp [toolMsg, hid])

/-- C1: for every conversation log produced by the workflow driver, every
`tool_call_id` appearing in an AI message's `tool_calls` list appears
exactly once in a subsequent Tool message before the next AI message is
appended to the log (for an AI message not yet followed by a further AI
message, the deadline has not arrived and the id has appeared at most
once). -/
theorem driver_log_pairing (s : DriverState) (hs : Reachable s) :
    pairedFrom s.log = true := by
  have hinv := reachable_inv hs
  rcases s with ⟨log, phase, n⟩
  cases phase with
  | orchestrating =>
    simp only [Inv] at hinv
    exact pairedFrom_of_allAnswered hinv
  | routing =>
    simp only [Inv] at hinv
    obtain ⟨base, a, hlog, hbase, hai, _⟩ := hinv
    rw [hlog]
    exact pairedFrom_append_ai hbase hai
  | subAgentRunning ag cid =>
    simp only [Inv] at hinv
    obtain ⟨base, a, tc, hlog, hbase, hai, _, _⟩ := hinv
    rw [hlog]
    exact pairedFrom_append_ai hbase hai
  | terminated t =>
    simp only [Inv] at hinv
    exact hinv

/-- Witness for the pairing invariant: a concrete three-message log
reached by an init / model-turn / route / bubble-report run satisfies the
pairing predicate. -/
theorem driver_log_pairing_witness :
    pairedFrom (([humanMsg "q"] ++ [aiDelegTurn]) ++
      [toolMsg "a cat" (some "visual") "call1"]) = true := by
  refine driver_log_pairing _ (Reachable.step (Reachable.step (Reachable.step
    (Reachable.init "q" 2)
    (Step.modelTurn [humanMsg "q"] 1 aiDelegTurn rfl (by decide)))
    (Step.routeDelegate ([humanMsg "q"] ++ [aiDelegTurn]) 1 aiDelegTurn
      "visual" [("query", "what is shown")] "call1" (by decide) (by decide)))
    (Step.bubbleReport ([humanMsg "q"] ++ [aiDelegTurn]) 1 "visual" "call1" "a cat"))

/-! ## Lemmas about the reverse scan of the history-reduction hook -/

theorem scanLoop_marker {i : Nat} {m : Message} {ys : List (Nat × Message)}
    {d : String} {e : Option Message} {st : Nat} {p : String}
    (hai : m.role = Role.ai) (hp : actionInputPayload m.content = some p) :
    scanLoop ((i, m) :: ys) d e st = (p, some (humanMsg p), i + 1) := by
  simp only [scanLoop, if_pos hai, hp]

theorem scanLoop_through {xs ys : List (Nat × Message)}
    (h : ∀ q ∈ xs, ¬ MarkerAI q.2) (d : String) (e : Option Message) (st : Nat) :
    ∃ d' e' st', scanLoop (xs ++ ys) d e st = scanLoop ys d' e' st' := by
  induction xs generalizing d e st with
  | nil => exact ⟨d, e, st, rfl⟩
  | cons q xs ih =>
    obtain ⟨i, m⟩ := q
    have hm := h (i, m) (List.mem_cons_self _ _)
    have htail : ∀ q ∈ xs, ¬ MarkerAI q.2 := fun q hq => h q (List.mem_cons_of_mem _ hq)
    rw [List.cons_append]
    by_cases hai : m.role = Role.ai
    · cases hp : actionInputPayload m.content with
      | some p => exact absurd ⟨hai, by rw [hp]; rfl⟩ hm
      | none =>
        simp only [scanLoop, if_pos hai, hp]
        exact ih htail d e st
    · simp only [scanLoop, if_neg hai]
      by_cases hh : m.role = Role.human ∧ e = none
      · rw [if_pos hh]
        exact ih htail _ _ _
      · rw [if_neg hh]
        exact ih htail d e st

theorem scanLoop_preserve {xs : List (Nat × Message)} {d : String} {x : Message} {st : Nat}
    (h : ∀ q ∈ xs, ¬ MarkerAI q.2) :
    scanLoop xs d (some x) st = (d, some x, st) := by
  induction xs with
  | nil => rfl
  | cons q xs ih =>
    obtain ⟨i, m⟩ := q
    have hm := h (i, m) (List.mem_cons_self _ _)
    have htail : ∀ q ∈ xs, ¬ MarkerAI q.2 := fun q hq => h q (List.mem_cons_of_mem _ hq)
    by_cases hai : m.role = Role.ai
    · cases hp : actionInputPayload m.content with
      | some p => exact absurd ⟨hai, by rw [hp]; rfl⟩ hm
      | none =>
        simp only [scanLoop, if_pos hai, hp]
        exact ih htail
    · have hh : ¬ (m.role = Role.human ∧ (some x : Option Message) = none) := by
        rintro ⟨-, hc⟩; cases hc
      simp only [scanLoop, if_neg hai, if_neg hh]
      exact ih htail

theorem scanLoop_skip {xs ys : List (Nat × Message)} {d : String}
    {e : Option Message} {st : Nat}
    (h : ∀ q ∈ xs, ¬ MarkerAI q.2 ∧ q.2.role ≠ Role.human) :
    scanLoop (xs ++ ys) d e st = scanLoop ys d e st := by
  induction xs with
  | nil => rfl
  | cons q xs ih =>
    obtain ⟨i, m⟩ := q
    obtain ⟨hm, hhum⟩ := h (i, m) (List.mem_cons_self _ _)
    have htail : ∀ q ∈ xs, ¬ MarkerAI q.2 ∧ q.2.role ≠ Role.human :=
      fun q hq => h q (List.mem_cons_of_mem _ hq)
    rw [List.cons_append]
    by_cases hai : m.role = Role.ai
    · cases hp : actionInputPayload m.content with
      | some p => exact absurd ⟨hai, by rw [hp]; rfl⟩ hm
      | none =>
        simp only [scanLoop, if_pos hai, hp]
        exact ih htail
    · have hh : ¬ (m.role = Role.human ∧ e = none) := by
        rintro ⟨hc, -⟩; exact hhum hc
      simp only [scanLoop, if_neg hai, if_neg hh]
      exact ih htail

theorem scanLoop_eff_human {xs : List (Nat × Message)} :
    ∀ {d : String} {e : Option Message} {st : Nat} {d' : String} {x : Message} {st' : Nat},
    scanLoop xs d e st = (d', some x, st') →
    (∀ y, e = some y → y.role = Role.human) → x.role = Role.human := by
  induction xs with
  | nil =>
    intro d e st d' x st' h he
    have he2 : e = some x := by
      have := congrArg (fun z => z.2.1) h
      simp only [scanLoop] at this
      exact this
    exact he x he2
  | cons q xs ih =>
    intro d e st d' x st' h he
    obtain ⟨i, m⟩ := q
    by_cases hai : m.role = Role.ai
    · cases hp : actionInputPayload m.content with
      | some p =>
        rw [scanLoop_marker hai hp] at h
        have hx : (some (humanMsg p) : Option Message) = some x := by
          have := congrArg (fun z => z.2.1) h
          simpa using this
        rw [← Option.some_inj.mp hx]
        rfl
      | none =>
        simp only [scanLoop, if_pos hai, hp] at h
        exact ih h he
    · simp only [scanLoop, if_neg hai] at h
      by_cases hh : m.role = Role.human ∧ e = none
      · rw [if_pos hh] at h
        exact ih h (fun y hy => by rw [← Option.some_inj.mp hy]; exact hh.1)
      · rw [if_neg hh] at h
        exact ih h he

theorem enumFrom_cons_eq {α : Type} (k : Nat) (x : α) (xs : List α) :
    List.enumFrom k (x :: xs) = (k, x) :: List.enumFrom (k + 1) xs := rfl

theorem findEffective_marker {pre suf : List Message} {a : Message} {p : String}
    (hai : a.role = Role.ai) (hp : actionInputPayload a.content = some p)
    (hnosuf : ∀ m ∈ suf, ¬ MarkerAI m) :
    findEffective (pre ++ a :: suf) = (p, some (humanMsg p), pre.length + 1) := by
  unfold findEffective
  rw [List.enum_append, enumFrom_cons_eq, List.reverse_append, List.reverse_cons,
    List.append_assoc]
  have hsuf' : ∀ q ∈ (List.enumFrom (pre.length + 1) suf).reverse, ¬ MarkerAI q.2 := by
    intro q hq
    rw [List.mem_reverse] at hq
    exact hnosuf q.2 (List.snd_mem_of_mem_enumFrom hq)
  obtain ⟨d', e', st', heq⟩ := scanLoop_through hsuf' "" none 0
  rw [heq]
  exact scanLoop_marker hai hp

theorem findEffective_fallback {pre suf : List Message} {h : Message}
    (hh : h.role = Role.human)
    (hnomark_pre : ∀ m ∈ pre, ¬ MarkerAI m)
    (hsuf : ∀ m ∈ suf, ¬ MarkerAI m ∧ m.role ≠ Role.human) :
    findEffective (pre ++ h :: suf) = (h.content, some h, pre.length + 1) := by
  unfold findEffective
  rw [List.enum_append, enumFrom_cons_eq, List.reverse_append, List.reverse_cons,
    List.append_assoc]
  have hsuf' : ∀ q ∈ (List.enumFrom (pre.length + 1) suf).reverse,
      ¬ MarkerAI q.2 ∧ q.2.role ≠ Role.human := by
    intro q hq
    rw [List.mem_reverse] at hq
    exact hsuf q.2 (List.snd_mem_of_mem_enumFrom hq)
  rw [scanLoop_skip hsuf']
  have hhr : ¬ h.role = Role.ai := by rw [hh]; intro hc; cases hc
  show scanLoop ((pre.length, h) :: pre.enum.reverse) "" none 0 = _
  simp only [scanLoop, if_neg hhr]
  rw [if_pos (by exact ⟨hh, by trivial⟩)]
  apply scanLoop_preserve
  intro q hq
  rw [List.mem_reverse] at hq
  exact hnomark_pre q.2 (List.snd_mem_of_mem_enumFrom hq)

theorem findEffective_empty {L : List Message}
    (h : ∀ m ∈ L, ¬ MarkerAI m ∧ m.role ≠ Role.human) :
    findEffective L = ("", none, 0) := by
  unfold findEffective
  have h' : ∀ q ∈ L.enum.reverse, ¬ MarkerAI q.2 ∧ q.2.role ≠ Role.human := by
    intro q hq
    rw [List.mem_reverse] at hq
    exact h q.2 (List.snd_mem_of_mem_enumFrom hq)
  rw [← List.append_nil L.enum.reverse, scanLoop_skip h']
  rfl

theorem exists_last_with {α : Type} (p : α → Prop) {l : List α} (h : ∃ x ∈ l, p x) :
    ∃ l1 a l2, l = l1 ++ a :: l2 ∧ p a ∧ ∀ x ∈ l2, ¬ p x := by
  induction l with
  | nil =>
    obtain ⟨x, hx, -⟩ := h
    cases hx
  | cons b t ih =>
    by_cases ht : ∃ x ∈ t, p x
    · obtain ⟨l1, a, l2, rfl, hpa, hl2⟩ := ih ht
      exact ⟨b :: l1, a, l2, rfl, hpa, hl2⟩
    · obtain ⟨x, hx, hpx⟩ := h
      rcases List.mem_cons.mp hx with rfl | hxt
      · exact ⟨[], x, t, rfl, hpx, fun y hy hpy => ht ⟨y, hy, hpy⟩⟩
      · exact absurd ⟨x, hxt, hpx⟩ ht

theorem findEffective_eff_human {L : List Message} {d : String} {e : Message} {st : Nat}
    (h : findEffective L = (d, some e, st)) : e.role = Role.human := by
  unfold findEffective at h
  exact scanLoop_eff_human h (fun y hy => by cases hy)

theorem findEffective_cases {L : List Message} {d : String} {e : Message} {st : Nat}
    (h : findEffective L = (d, some e, st)) :
    e = humanMsg d ∨
      (e ∈ L ∧ e.role = Role.human ∧ ∀ m ∈ L.drop st, m.role ≠ Role.human) := by
  by_cases hm : ∃ m ∈ L, MarkerAI m
  · obtain ⟨l1, a, l2, hL, hpa, hl2⟩ := exists_last_with MarkerAI hm
    obtain ⟨hai, hsome⟩ := hpa
    obtain ⟨p, hp⟩ := Option.isSome_iff_exists.mp hsome
    rw [hL, findEffective_marker hai hp hl2] at h
    have hd : p = d := congrArg (fun z => z.1) h
    have he : (some (humanMsg p) : Option Message) = some e := by
      have := congrArg (fun z => z.2.1) h
      simpa using this
    left
    rw [← Option.some_inj.mp he, hd]
  · by_cases hh : ∃ m ∈ L, m.role = Role.human
    · obtain ⟨l1, a, l2, hL, hpa, hl2⟩ :=
        exists_last_with (fun m => m.role = Role.human) hh
      have hpre : ∀ m ∈ l1, ¬ MarkerAI m := by
        intro m h1 hmk
        exact hm ⟨m, by rw [hL]; exact List.mem_append_left _ h1, hmk⟩
      have hsuf : ∀ m ∈ l2, ¬ MarkerAI m ∧ m.role ≠ Role.human := by
        intro m h2
        refine ⟨fun hmk => hm ⟨m, ?_, hmk⟩, hl2 m h2⟩
        rw [hL]
        exact List.mem_append_right _ (List.mem_cons_of_mem _ h2)
      rw [hL, findEffective_fallback hpa hpre hsuf] at h
      have he : (some a : Option Message) = some e := by
        have := congrArg (fun z => z.2.1) h
        simpa using this
      have hst : l1.length + 1 = st := congrArg (fun z => z.2.2) h
      have hea : a = e := Option.some_inj.mp he
      right
      refine ⟨?_, ?_, ?_⟩
      · rw [hL, ← hea]
        exact List.mem_append_right _ (List.mem_cons_self _ _)
      · rw [← hea]; exact hpa
      · intro m hmem
        rw [hL, ← hst] at hmem
        have hdrop : (l1 ++ a :: l2).drop (l1.length + 1) = l2 := by
          rw [show l1 ++ a :: l2 = (l1 ++ [a]) ++ l2 by simp]
          exact List.drop_left' (by simp)
        rw [hdrop] at hmem
        exact hl2 m hmem
    · have hall : ∀ m ∈ L, ¬ MarkerAI m ∧ m.role ≠ Role.human :=
        fun m hmm => ⟨fun hmk => hm ⟨m, hmm, hmk⟩, fun hr => hh ⟨m, hmm, hr⟩⟩
      rw [findEffective_empty hall] at h
      have hc : (none : Option Message) = some e := by
        have := congrArg (fun z => z.2.1) h
        simp only at this
        exact this
      cases hc

/-! ## Lemmas about the assembled hook result -/

theorem hook_input_eq (A : String) (L : List Message) :
    (create_clean_agent_messages_hook A L).input = (findEffective L).1 := rfl

theorem hook_messages_eq (A : String) (L : List Message) :
    (create_clean_agent_messages_hook A L).messages =
      (firstSysMsg L).toList ++
      (((findEffective L).2.1).toList ++
      (L.enum.drop (findEffective L).2.2).filterMap (keepForAgent A (findFirstSysIdx L))) := by
  rw [create_clean_agent_messages_hook]
  rw [List.append_assoc]
  rfl

theorem findEffective_eff_human_proj {L : List Message} {e : Message}
    (h : (findEffective L).2.1 = some e) : e.role = Role.human :=
  @findEffective_eff_human L (findEffective L).1 e (findEffective L).2.2
    (show findEffective L = ((findEffective L).1, some e, (findEffective L).2.2) by
      rw [← h])

theorem findEffective_cases_proj {L : List Message} {e : Message}
    (h : (findEffective L).2.1 = some e) :
    e = humanMsg (findEffective L).1 ∨
      (e ∈ L ∧ e.role = Role.human ∧
        ∀ m ∈ L.drop (findEffective L).2.2, m.role ≠ Role.human) :=
  findEffective_cases
    (show findEffective L = ((findEffective L).1, some e, (findEffective L).2.2) by
      rw [← h])

theorem kept_mem_cases {agent : String} {sysIdx? : Option Nat}
    {xs : List (Nat × Message)} {m : Message}
    (h : m ∈ xs.filterMap (keepForAgent agent sysIdx?)) :
    ∃ i, (i, m) ∈ xs ∧ (m.name = some agent ∨ (m.role = Role.ai ∧ m.name = none)) := by
  obtain ⟨q, hq, hkeep⟩ := List.mem_filterMap.mp h
  obtain ⟨i, x⟩ := q
  simp only [keepForAgent] at hkeep
  by_cases h1 : sysIdx? = some i
  · rw [if_pos h1] at hkeep; cases hkeep
  · rw [if_neg h1] at hkeep
    by_cases h2 : x.name = some agent
    · rw [if_pos h2] at hkeep
      obtain rfl := Option.some_inj.mp hkeep
      exact ⟨i, hq, Or.inl h2⟩
    · rw [if_neg h2] at hkeep
      by_cases h3 : x.role = Role.ai ∧ x.name = none
      · rw [if_pos h3] at hkeep
        obtain rfl := Option.some_inj.mp hkeep
        exact ⟨i, hq, Or.inr h3⟩
      · rw [if_neg h3] at hkeep; cases hkeep

theorem findFirstSysIdx_append {l1 l2 : List Message} {s : Message}
    (hnone : ∀ m ∈ l1, m.role ≠ Role.system) (hs : s.role = Role.system) :
    findFirstSysIdx (l1 ++ s :: l2) = some l1.length := by
  induction l1 with
  | nil =>
    simp only [List.nil_append, findFirstSysIdx, if_pos hs, List.length_nil]
  | cons x t ih =>
    have hx : ¬ x.role = Role.system := hnone x (List.mem_cons_self _ _)
    have ht : ∀ m ∈ t, m.role ≠ Role.system := fun m hm => hnone m (List.mem_cons_of_mem _ hm)
    show findFirstSysIdx (x :: (t ++ s :: l2)) = some (t.length + 1)
    rw [findFirstSysIdx, if_neg hx, ih ht]
    rfl

theorem findFirstSysIdx_none {L : List Message}
    (h : ∀ m ∈ L, m.role ≠ Role.system) : findFirstSysIdx L = none := by
  induction L with
  | nil => rfl
  | cons x t ih =>
    have hx : ¬ x.role = Role.system := h x (List.mem_cons_self _ _)
    rw [findFirstSysIdx, if_neg hx, ih (fun m hm => h m (List.mem_cons_of_mem _ hm))]
    rfl

/-! ## Claim theorems for the history-reduction hook -/

/-- C2 counterexample: the scoped view is not limited to messages named
for the agent plus the leading System message — on the log consisting of
one Human message named "bob", the view computed for agent "alice"
contains that message, whose name is non-null, different from "alice",
and which is not a System message. -/
theorem history_scoping_counterexample :
    (create_clean_agent_messages_hook "alice" [bobMsg]).messages = [bobMsg] ∧
    bobMsg.name = some "bob" ∧
    (some "bob" : Option String) ≠ some "alice" ∧
    bobMsg.role ≠ Role.system := by
  refine ⟨by decide, rfl, by decide, by decide⟩

/-- C2 (amended): every message of the scoped view for agent `A` has a
null name or the name `A`, except the first System message of the log and
the effective-input Human message (which, in the fallback case, is the
most recent Human message of the log included with whatever name it
carries; in the delegation case it is a synthetic name-less Human
message). -/
theorem history_scoping_amended (L : List Message) (A : String) (m : Message)
    (hm : m ∈ (create_clean_agent_messages_hook A L).messages) :
    m.name = none ∨ m.name = some A ∨
      firstSysMsg L = some m ∨
      (findEffective L).2.1 = some m := by
  rw [hook_messages_eq] at hm
  rcases List.mem_append.mp hm with hsys | hrest
  · right; right; left
    exact Option.mem_def.mp (Option.mem_toList.mp hsys)
  · rcases List.mem_append.mp hrest with heff | hkept
    · right; right; right
      exact Option.mem_def.mp (Option.mem_toList.mp heff)
    · obtain ⟨i, -, hname⟩ := kept_mem_cases hkept
      rcases hname with h1 | h2
      · right; left; exact h1
      · left; exact h2.2

/-- Witness for the amended history-scoping theorem at a concrete log. -/
theorem history_scoping_amended_witness :
    (humanMsg "q").name = none ∨ (humanMsg "q").name = some "g" ∨
      firstSysMsg [humanMsg "q"] = some (humanMsg "q") ∨
      (findEffective [humanMsg "q"]).2.1 = some (humanMsg "q") :=
  history_scoping_amended [humanMsg "q"] "g" (humanMsg "q") (by decide)

/-- C3: when the log contains a marker-bearing AI message (most recent
such message `a`, at position `pre.length`) and also a Human message, the
effective input is the payload captured from `a`, wrapped as a synthetic
Human message — not the Human message's content — and the scratchpad scan
begins strictly after `a`'s position. -/
theorem delegation_marker_precedence
    (pre suf : List Message) (a : Message) (p A : String)
    (hai : a.role = Role.ai) (hp : actionInputPayload a.content = some p)
    (hnosuf : ∀ m ∈ suf, ¬ MarkerAI m)
    (_hhum : ∃ hm ∈ pre ++ a :: suf, hm.role = Role.human) :
    findEffective (pre ++ a :: suf) = (p, some (humanMsg p), pre.length + 1) ∧
    (create_clean_agent_messages_hook A (pre ++ a :: suf)).input = p := by
  have hfe := @findEffective_marker pre suf a p hai hp hnosuf
  exact ⟨hfe, by rw [hook_input_eq, hfe]⟩

/-- Witness for the delegation-marker precedence at a concrete log with an
earlier Human message. -/
theorem delegation_marker_precedence_witness :
    findEffective [humanMsg "orig", aiMsg "Action Input: \"task\""] =
      ("task", some (humanMsg "task"), 2) ∧
    (create_clean_agent_messages_hook "res"
      [humanMsg "orig", aiMsg "Action Input: \"task\""]).input = "task" :=
  delegation_marker_precedence [humanMsg "orig"] [] (aiMsg "Action Input: \"task\"")
    "task" "res" rfl (by decide) (by intro m hm; cases hm)
    ⟨humanMsg "orig", by decide⟩

/-- C5: the first System message of the log, when one exists, is the first
element of the scoped view; when the log contains no System message, the
view contains none (none is fabricated). -/
theorem system_message_handling (L : List Message) (A : String) :
    (∀ l1 s l2, L = l1 ++ s :: l2 → s.role = Role.system →
      (∀ m ∈ l1, m.role ≠ Role.system) →
      (create_clean_agent_messages_hook A L).messages.head? = some s) ∧
    ((∀ m ∈ L, m.role ≠ Role.system) →
      ∀ m ∈ (create_clean_agent_messages_hook A L).messages, m.role ≠ Role.system) := by
  constructor
  · intro l1 s l2 hL hs hnone
    subst hL
    have hget : (l1 ++ s :: l2)[l1.length]? = some s := by
      rw [List.getElem?_append_right (Nat.le_refl _)]
      simp
    have hfs : firstSysMsg (l1 ++ s :: l2) = some s := by
      rw [firstSysMsg, findFirstSysIdx_append hnone hs]
      exact hget
    rw [hook_messages_eq, hfs]
    rfl
  · intro hnone m hm
    rw [hook_messages_eq] at hm
    rcases List.mem_append.mp hm with hsys | hrest
    · have : firstSysMsg L = some m := Option.mem_def.mp (Option.mem_toList.mp hsys)
      rw [firstSysMsg, findFirstSysIdx_none hnone] at this
      cases this
    · rcases List.mem_append.mp hrest with heff | hkept
      · have he : (findEffective L).2.1 = some m :=
          Option.mem_def.mp (Option.mem_toList.mp heff)
        rw [findEffective_eff_human_proj he]
        intro hc
        cases hc
      · obtain ⟨i, hmem, -⟩ := kept_mem_cases hkept
        have : (i, m) ∈ L.enum := List.drop_subset _ _ hmem
        exact hnone m (List.snd_mem_of_mem_enumFrom this)

/-- Witness for the System-message handling at a concrete log with a
leading System message. -/
theorem system_message_handling_witness :
    (create_clean_agent_messages_hook "g" [sysMsgW, humanMsg "find"]).messages.head? =
      some sysMsgW :=
  (system_message_handling [sysMsgW, humanMsg "find"] "g").1
    [] sysMsgW [humanMsg "find"] rfl rfl (by intro m hm; cases hm)

/-- C6: the history-reduction hook for a fixed agent name is pure and
deterministic — two logs whose messages agree componentwise (role,
content, name, tool calls, tool-call id at every position) produce equal
scoped views and equal effective inputs. -/
theorem hook_deterministic (L1 L2 : List Message) (A : String)
    (hlen : L1.length = L2.length)
    (hfields : ∀ (i : Nat) (m1 m2 : Message), L1[i]? = some m1 → L2[i]? = some m2 →
      m1.role = m2.role ∧ m1.content = m2.content ∧ m1.name = m2.name ∧
      m1.tool_calls = m2.tool_calls ∧ m1.tool_call_id = m2.tool_call_id) :
    create_clean_agent_messages_hook A L1 = create_clean_agent_messages_hook A L2 := by
  have hL : L1 = L2 := by
    apply List.ext_getElem?
    intro i
    cases h1 : L1[i]? with
    | none =>
      cases h2 : L2[i]? with
      | none => rfl
      | some m2 =>
        rw [List.getElem?_eq_none_iff] at h1
        have hlt : i < L2.length := by
          by_contra hge
          rw [List.getElem?_eq_none (Nat.le_of_not_lt hge)] at h2
          cases h2
        omega
    | some m1 =>
      cases h2 : L2[i]? with
      | none =>
        rw [List.getElem?_eq_none_iff] at h2
        have hlt : i < L1.length := by
          by_contra hge
          rw [List.getElem?_eq_none (Nat.le_of_not_lt hge)] at h1
          cases h1
        omega
      | some m2 =>
        obtain ⟨hr, hc, hn, htc, hid⟩ := hfields i m1 m2 h1 h2
        have : m1 = m2 := by
          cases m1
          cases m2
          cases hr; cases hc; cases hn; cases htc; cases hid
          rfl
        rw [this]
  rw [hL]

/-- Witness for determinism of the hook at a concrete log. -/
theorem hook_deterministic_witness :
    create_clean_agent_messages_hook "g" [humanMsg "x"] =
      create_clean_agent_messages_hook "g" [humanMsg "x"] :=
  hook_deterministic [humanMsg "x"] [humanMsg "x"] "g" rfl
    (by
      intro i m1 m2 h1 h2
      cases i with
      | zero =>
        simp only [List.getElem?_cons_zero, Option.some_inj] at h1 h2
        rw [← h1, ← h2]
        exact ⟨rfl, rfl, rfl, rfl, rfl⟩
      | succ j =>
        rw [List.getElem?_cons_succ, List.getElem?_nil] at h1
        cases h1)

/-! ## String-manipulation lemmas for the payload extraction -/

theorem findCIAux_of_isPrefixOf {l pat : List Char} {k : Nat}
    (hne : l ≠ []) (hp : pat.isPrefixOf l = true) :
    findCIAux l pat k = some k := by
  cases l with
  | nil => cases hne rfl
  | cons c rest =>
    simp only [findCIAux]
    rw [if_pos hp]

theorem pyStripL_space (l : List Char) : pyStripL (' ' :: l) = pyStripL l := by
  unfold pyStripL
  rw [List.dropWhile_cons, if_pos (by decide)]

theorem dropWhile_cons_of_neg {p : Char → Bool} {c : Char} {l : List Char}
    (h : p c = false) : (c :: l).dropWhile p = c :: l := by
  rw [List.dropWhile_cons, if_neg (by simp [h])]

theorem pyStripL_of_ends {c1 c2 : Char} (h1 : Char.isWhitespace c1 = false)
    (h2 : Char.isWhitespace c2 = false) (l : List Char) :
    pyStripL (c1 :: (l ++ [c2])) = c1 :: (l ++ [c2]) := by
  unfold pyStripL
  rw [dropWhile_cons_of_neg h1]
  have hrev : (c1 :: (l ++ [c2])).reverse = c2 :: (l.reverse ++ [c1]) := by
    simp
  rw [hrev, dropWhile_cons_of_neg h2, ← hrev, List.reverse_reverse]

theorem dropWhile_quote_of_head {l : List Char} (h : l.head? ≠ some '"') :
    l.dropWhile (· == '"') = l := by
  cases l with
  | nil => rfl
  | cons c t =>
    have hc : (c == '"') = false := by
      cases hcq : c == '"'
      · rfl
      · exact absurd (by rw [List.head?_cons, (beq_iff_eq ..).mp hcq]) h
    exact dropWhile_cons_of_neg hc

theorem stripQuotesL_wrap {l : List Char} (hhead : l.head? ≠ some '"')
    (hlast : l.getLast? ≠ some '"') :
    stripQuotesL ('"' :: (l ++ ['"'])) = l := by
  unfold stripQuotesL
  rw [List.dropWhile_cons, if_pos (by decide)]
  cases l with
  | nil => decide
  | cons c t =>
    have hch : ((c :: t) ++ ['"']).head? ≠ some '"' := by
      rw [List.cons_append, List.head?_cons]
      intro hc
      exact hhead (by rw [List.head?_cons]; exact hc)
    rw [dropWhile_quote_of_head hch]
    rw [show ((c :: t) ++ ['"']).reverse = '"' :: (c :: t).reverse by simp]
    rw [List.dropWhile_cons, if_pos (by decide)]
    rw [dropWhile_quote_of_head (by rw [List.head?_reverse]; exact hlast)]
    simp

/-! ## C8: termination tool composed with the final-answer extractor -/

theorem extract_hook_singleton_ai (c : String) :
    extract_final_answer_hook [aiMsg c] =
      (if c = "" then none
       else match findCI c finalAnswerMarker with
         | some i =>
           some (String.mk (pyStripL (c.data.drop (i + finalAnswerMarker.length))))
         | none => none) := rfl

/-- C8: for every answer with no surrounding whitespace, the final-answer
extraction applied to the string produced by the `provide_final_answer`
tool recovers exactly the answer: the termination tool and the extractor
compose to the identity on trimmed answers. -/
theorem provide_final_answer_roundtrip (answer : String)
    (h : pyStrip answer = answer) :
    extract_final_answer_hook [aiMsg (provide_final_answer answer)] = some answer := by
  have hdata : (provide_final_answer answer).data = "Final Answer: ".data ++ answer.data := by
    rw [provide_final_answer, String.data_append]
  have hlower : lowerChars (provide_final_answer answer)
      = "final answer: ".data ++ lowerChars answer := by
    rw [lowerChars, hdata, List.map_append]
    congr 1
  have hpref : finalAnswerMarker.isPrefixOf
      ("final answer: ".data ++ lowerChars answer) = true := by
    rw [List.isPrefixOf_iff_prefix,
      show "final answer: ".data = finalAnswerMarker ++ [' '] from by decide,
      List.append_assoc]
    exact List.prefix_append _ _
  have hne : "final answer: ".data ++ lowerChars answer ≠ [] := by
    intro hnil
    rw [List.append_eq_nil] at hnil
    exact absurd hnil.1 (by decide)
  have hfind : findCI (provide_final_answer answer) finalAnswerMarker = some 0 := by
    rw [findCI, hlower]
    exact findCIAux_of_isPrefixOf hne hpref
  have hcne : ¬ provide_final_answer answer = "" := by
    intro hq
    have hl := congrArg String.length hq
    rw [provide_final_answer, String.length_append] at hl
    have h14 : ("Final Answer: " : String).length = 14 := rfl
    have h0 : ("" : String).length = 0 := rfl
    omega
  rw [extract_hook_singleton_ai, if_neg hcne]
  simp only [hfind]
  rw [hdata, show (0 + finalAnswerMarker.length) = 13 from by decide,
    List.drop_append_of_le_length (by decide),
    show "Final Answer: ".data.drop 13 = [' '] from by decide,
    show ([' '] ++ answer.data) = ' ' :: answer.data from rfl,
    pyStripL_space]
  exact congrArg some h

/-- Witness for the round-trip at the concrete answer "Paris". -/
theorem provide_final_answer_roundtrip_witness :
    extract_final_answer_hook [aiMsg (provide_final_answer "Paris")] = some "Paris" :=
  provide_final_answer_roundtrip "Paris" (by decide)

/-! ## C10: quote stripping of the delegation payload -/

/-- C10 counterexample: for the marker payload `""x""` (a payload enclosed
in double quotes whose interior is also quoted), the hook strips ALL
leading and trailing double quotes: the returned input and the synthetic
Human message carry "x", not the payload minus one enclosing pair of
quotes (`"x"`). -/
theorem quote_stripping_counterexample :
    (create_clean_agent_messages_hook "generic"
      [aiMsg "Action Input: \"\"x\"\""]).input = "x" ∧
    (create_clean_agent_messages_hook "generic"
      [aiMsg "Action Input: \"\"x\"\""]).messages = [humanMsg "x"] ∧
    ("x" : String) ≠ "\"x\"" := by
  refine ⟨by decide, by decide, by decide⟩

/-- C10 (amended): the hook first trims whitespace, then strips all
leading and trailing double-quote characters from the captured payload;
for every payload enclosed in double quotes whose interior neither begins
nor ends with a double quote, the synthetic Human message's content and
the returned input string equal the interior (the payload without its
enclosing quotes). -/
theorem quote_stripping_amended (inner A : String)
    (hhead : inner.data.head? ≠ some '"')
    (hlast : inner.data.getLast? ≠ some '"') :
    actionInputPayload ("Action Input: \"" ++ inner ++ "\"") = some inner ∧
    (create_clean_agent_messages_hook A
      [aiMsg ("Action Input: \"" ++ inner ++ "\"")]).input = inner ∧
    (create_clean_agent_messages_hook A
      [aiMsg ("Action Input: \"" ++ inner ++ "\"")]).messages = [humanMsg inner] := by
  have hdata : ("Action Input: \"" ++ inner ++ "\"").data
      = "Action Input: \"".data ++ (inner.data ++ "\"".data) := by
    rw [String.data_append, String.data_append, List.append_assoc]
  have hlower : lowerChars ("Action Input: \"" ++ inner ++ "\"")
      = "action input: \"".data ++ (lowerChars inner ++ "\"".data) := by
    rw [lowerChars, hdata, List.map_append, List.map_append]
    congr 1
  have hpref : actionInputMarker.isPrefixOf
      ("action input: \"".data ++ (lowerChars inner ++ "\"".data)) = true := by
    rw [List.isPrefixOf_iff_prefix,
      show "action input: \"".data = actionInputMarker ++ [' ', '"'] from by decide,
      List.append_assoc]
    exact List.prefix_append _ _
  have hne : "action input: \"".data ++ (lowerChars inner ++ "\"".data) ≠ [] := by
    intro hnil
    rw [List.append_eq_nil] at hnil
    exact absurd hnil.1 (by decide)
  have hfind : findCI ("Action Input: \"" ++ inner ++ "\"") actionInputMarker = some 0 := by
    rw [findCI, hlower]
    exact findCIAux_of_isPrefixOf hne hpref
  have hpayload : actionInputPayload ("Action Input: \"" ++ inner ++ "\"") = some inner := by
    rw [actionInputPayload]
    simp only [hfind]
    rw [hdata, show (0 + actionInputMarker.length) = 13 from by decide,
      List.drop_append_of_le_length (by decide),
      show "Action Input: \"".data.drop 13 = [' ', '"'] from by decide,
      show ([' ', '"'] ++ (inner.data ++ "\"".data)) =
        ' ' :: ('"' :: (inner.data ++ ['"'])) from rfl,
      pyStripL_space,
      pyStripL_of_ends (by decide) (by decide),
      stripQuotesL_wrap hhead hlast]
  have hfe : findEffective [aiMsg ("Action Input: \"" ++ inner ++ "\"")]
      = (inner, some (humanMsg inner), 1) := by
    exact @findEffective_marker [] []
      (aiMsg ("Action Input: \"" ++ inner ++ "\"")) inner rfl hpayload
      (by intro m hm; cases hm)
  have hidx : findFirstSysIdx [aiMsg ("Action Input: \"" ++ inner ++ "\"")] = none := by
    rw [findFirstSysIdx, if_neg (by intro hc; simp [aiMsg] at hc)]
    rfl
  refine ⟨hpayload, ?_, ?_⟩
  · rw [hook_input_eq, hfe]
  · rw [hook_messages_eq, hfe]
    rw [show firstSysMsg [aiMsg ("Action Input: \"" ++ inner ++ "\"")] = none from by
      rw [firstSysMsg, hidx]; rfl]
    rfl

/-- Witness for the amended quote-stripping theorem at a concrete
payload. -/
theorem quote_stripping_amended_witness :
    actionInputPayload "Action Input: \"task one\"" = some "task one" ∧
    (create_clean_agent_messages_hook "g"
      [aiMsg "Action Input: \"task one\""]).input = "task one" ∧
    (create_clean_agent_messages_hook "g"
      [aiMsg "Action Input: \"task one\""]).messages = [humanMsg "task one"] :=
  quote_stripping_amended "task one" "g" (by decide) (by decide)

/-! ## C4: characterization of the final-answer extraction hook -/

theorem findCIAux_none_iff {l pat : List Char} (hpat : pat ≠ []) (k : Nat) :
    findCIAux l pat k = none ↔ ∀ i, ¬ pat <+: l.drop i := by
  induction l generalizing k with
  | nil =>
    simp only [findCIAux]
    rw [if_neg (by simpa using hpat)]
    constructor
    · intro _ i
      rw [List.drop_nil, List.prefix_nil]
      exact hpat
    · intro _
      rfl
  | cons c rest ih =>
    simp only [findCIAux]
    by_cases hp : pat.isPrefixOf (c :: rest)
    · rw [if_pos hp]
      constructor
      · intro hc; cases hc
      · intro hall
        exact absurd (by rw [List.drop_zero]; exact List.isPrefixOf_iff_prefix.mp hp)
          (hall 0)
    · rw [if_neg hp]
      rw [ih (k + 1)]
      constructor
      · intro hall i
        cases i with
        | zero =>
          rw [List.drop_zero, ← List.isPrefixOf_iff_prefix]
          simp [hp]
        | succ j =>
          rw [List.drop_succ_cons]
          exact hall j
      · intro hall i
        have hs := hall (i + 1)
        rw [List.drop_succ_cons] at hs
        exact hs

theorem findCIAux_some_iff {l pat : List Char} (hpat : pat ≠ []) (k j : Nat) :
    findCIAux l pat k = some j ↔
      ∃ i, j = k + i ∧ pat <+: l.drop i ∧ ∀ i', i' < i → ¬ pat <+: l.drop i' := by
  induction l generalizing k j with
  | nil =>
    simp only [findCIAux]
    rw [if_neg (by simpa using hpat)]
    constructor
    · intro hc; cases hc
    · rintro ⟨i, -, hpre, -⟩
      rw [List.drop_nil, List.prefix_nil] at hpre
      exact absurd hpre hpat
  | cons c rest ih =>
    simp only [findCIAux]
    by_cases hp : pat.isPrefixOf (c :: rest)
    · rw [if_pos hp]
      constructor
      · intro hjk
        obtain rfl := Option.some_inj.mp hjk
        exact ⟨0, by omega, by rw [List.drop_zero]; exact List.isPrefixOf_iff_prefix.mp hp,
          fun i' hi' => absurd hi' (Nat.not_lt_zero _)⟩
      · rintro ⟨i, rfl, hpre, hmin⟩
        cases i with
        | zero => rfl
        | succ i' =>
          exact absurd (by rw [List.drop_zero]; exact List.isPrefixOf_iff_prefix.mp hp)
            (hmin 0 (Nat.succ_pos _))
    · rw [if_neg hp]
      rw [ih (k + 1) j]
      constructor
      · rintro ⟨i, rfl, hpre, hmin⟩
        refine ⟨i + 1, by omega, ?_, ?_⟩
        · rw [List.drop_succ_cons]
          exact hpre
        · intro i' hi'
          cases i' with
          | zero =>
            rw [List.drop_zero, ← List.isPrefixOf_iff_prefix]
            simp [hp]
          | succ i'' =>
            rw [List.drop_succ_cons]
            exact hmin i'' (by omega)
      · rintro ⟨i, rfl, hpre, hmin⟩
        cases i with
        | zero =>
          exfalso
          rw [List.drop_zero] at hpre
          exact hp (List.isPrefixOf_iff_prefix.mpr hpre)
        | succ i' =>
          refine ⟨i', by omega, ?_, ?_⟩
          · rw [List.drop_succ_cons] at hpre
            exact hpre
          · intro i'' hi''
            have hs := hmin (i'' + 1) (by omega)
            rw [List.drop_succ_cons] at hs
            exact hs

/-- C4: the extraction hook returns the update `{final_answer := t}` if
and only if the last message is an AI message whose content contains the
case-insensitive marker "final answer:" and `t` is everything after the
first occurrence of the marker, trimmed (the match may span multiple
lines); in every other case, including the empty message list, it returns
no update; and the result depends on no message other than the last.  On
a last AI message "Final Answer: Paris is the capital." it returns
"Paris is the capital." -/
theorem extract_final_answer_characterization :
    (∀ (L : List Message) (t : String),
      extract_final_answer_hook L = some t ↔
        ∃ m, L.getLast? = some m ∧ m.role = Role.ai ∧
          ∃ i, finalAnswerMarker <+: (lowerChars m.content).drop i ∧
            (∀ j, j < i → ¬ finalAnswerMarker <+: (lowerChars m.content).drop j) ∧
            t = String.mk (pyStripL (m.content.data.drop (i + finalAnswerMarker.length)))) ∧
    (∀ L1 L2 : List Message, L1.getLast? = L2.getLast? →
      extract_final_answer_hook L1 = extract_final_answer_hook L2) ∧
    extract_final_answer_hook [aiMsg "Final Answer: Paris is the capital."] =
      some "Paris is the capital." := by
  refine ⟨?_, ?_, by decide⟩
  · intro L t
    cases hL : L.getLast? with
    | none =>
      simp only [extract_final_answer_hook, hL]
      constructor
      · intro hc; cases hc
      · rintro ⟨m, hm, -⟩
        cases hm
    | some m =>
      simp only [extract_final_answer_hook, hL]
      by_cases hai : m.role = Role.ai
      · rw [if_pos hai]
        by_cases hc0 : m.content = ""
        · rw [if_pos hc0]
          constructor
          · intro hc; cases hc
          · rintro ⟨m', hm', -, i, hpre, -, -⟩
            obtain rfl := Option.some_inj.mp hm'
            rw [hc0, show lowerChars "" = [] from rfl, List.drop_nil,
              List.prefix_nil] at hpre
            exact absurd hpre (by decide)
        · rw [if_neg hc0]
          have hpat : finalAnswerMarker ≠ [] := by decide
          cases hf : findCI m.content finalAnswerMarker with
          | none =>
            simp only
            rw [findCI, findCIAux_none_iff hpat 0] at hf
            constructor
            · intro hcc; cases hcc
            · rintro ⟨m', hm', -, i, hpre, -, -⟩
              obtain rfl := Option.some_inj.mp hm'
              exact absurd hpre (hf i)
          | some i =>
            simp only
            rw [findCI, findCIAux_some_iff hpat 0 i] at hf
            obtain ⟨i0, hi0, hpre0, hmin0⟩ := hf
            have hieq : i0 = i := by omega
            subst hieq
            constructor
            · intro hsome
              have ht := Option.some_inj.mp hsome
              exact ⟨m, rfl, hai, i0, hpre0, fun j hj => hmin0 j hj, ht.symm⟩
            · rintro ⟨m', hm', -, i', hpre', hmin', ht'⟩
              obtain rfl := Option.some_inj.mp hm'
              have hii : i' = i0 := by
                rcases Nat.lt_trichotomy i' i0 with hlt | heq | hgt
                · exact absurd hpre' (hmin0 i' hlt)
                · exact heq
                · exact absurd hpre0 (hmin' i0 hgt)
              subst hii
              rw [ht']
      · rw [if_neg hai]
        constructor
        · intro hc; cases hc
        · rintro ⟨m', hm', hai', -⟩
          obtain rfl := Option.some_inj.mp hm'
          exact absurd hai' hai
  · intro L1 L2 h
    unfold extract_final_answer_hook
    rw [h]

/-- Witness for the characterization: the extractor depends only on the
last message. -/
theorem extract_final_answer_characterization_witness :
    extract_final_answer_hook [humanMsg "ctx", aiMsg "ok"] =
      extract_final_answer_hook [aiMsg "ok"] :=
  extract_final_answer_characterization.2.1
    [humanMsg "ctx", aiMsg "ok"] [aiMsg "ok"] (by decide)

/-! ## C7: BasicAgent result shaping -/

/-- C7 counterexample: on a final state whose `final_answer` is the empty
string (which the state "has"), `BasicAgent.__call__` returns the
fallback (the last AI message's content), not the empty extracted
answer — Python truthiness also treats an empty answer as missing. -/
theorem basic_agent_counterexample :
    basicAgentResult (Except.ok emptyAnswerState) = "done" ∧ ("done" : String) ≠ "" :=
  ⟨rfl, by decide⟩

/-- C7 (amended): BasicAgent.__call__ never propagates a raw exception:
for every question, optional file path and workflow outcome it returns a
string — the extracted final_answer when the final state has a non-empty
one, otherwise a fallback (the last message's content when that is an AI
message, or the fixed no-answer label), and an error-labelled string when
workflow execution raises an exception. -/
theorem basic_agent_result_shape (workflow : AgentState → Except String AgentState)
    (question : String) (path : Option String) :
    (∀ e, workflow (initialState question path) = Except.error e →
      basicAgentCall workflow question path =
        "An error occurred while processing your request: " ++ e) ∧
    (∀ st a, workflow (initialState question path) = Except.ok st →
      st.final_answer = some a → a ≠ "" →
      basicAgentCall workflow question path = a) ∧
    (∀ st m, workflow (initialState question path) = Except.ok st →
      (st.final_answer = none ∨ st.final_answer = some "") →
      st.messages.getLast? = some m → m.role = Role.ai →
      basicAgentCall workflow question path = m.content) ∧
    (∀ st, workflow (initialState question path) = Except.ok st →
      (st.final_answer = none ∨ st.final_answer = some "") →
      (∀ m, st.messages.getLast? = some m → m.role ≠ Role.ai) →
      basicAgentCall workflow question path =
        "Workflow completed, but no clear answer was found.") := by
  refine ⟨?_, ?_, ?_, ?_⟩
  · intro e hw
    rw [basicAgentCall, hw]
    rfl
  · intro st a hw hfa ha
    rw [basicAgentCall, hw]
    simp only [basicAgentResult, hfa]
    rw [if_neg ha]
  · intro st m hw hfa hlast hai
    rw [basicAgentCall, hw]
    have hfb : basicAgentFallback st = m.content := by
      simp only [basicAgentFallback, hlast]
      rw [if_pos hai]
    rcases hfa with hfa | hfa
    · simp only [basicAgentResult, hfa]
      exact hfb
    · simp only [basicAgentResult, hfa, if_true]
      exact hfb
  · intro st hw hfa hnot
    rw [basicAgentCall, hw]
    have hfb : basicAgentFallback st =
        "Workflow completed, but no clear answer was found." := by
      cases hlast : st.messages.getLast? with
      | none => simp only [basicAgentFallback, hlast]
      | some m =>
        simp only [basicAgentFallback, hlast]
        rw [if_neg (hnot m hlast)]
    rcases hfa with hfa | hfa
    · simp only [basicAgentResult, hfa]
      exact hfb
    · simp only [basicAgentResult, hfa, if_true]
      exact hfb

/-- Witness for the result shaping: a workflow returning a non-empty
final answer makes the call return it. -/
theorem basic_agent_result_shape_witness :
    basicAgentCall okWorkflowW "q" none = "42" :=
  (basic_agent_result_shape okWorkflowW "q" none).2.1
    ⟨"q", [], some "42"⟩ "42" rfl rfl (by decide)

/-! ## C9: visual agent drops the first element of the cleaned view -/

theorem enumFrom_drop {α : Type} (l : List α) (k n : Nat) :
    (List.enumFrom k l).drop n = List.enumFrom (k + n) (l.drop n) := by
  induction l generalizing k n with
  | nil => simp
  | cons x xs ih =>
    cases n with
    | zero => simp
    | succ n' =>
      rw [enumFrom_cons_eq, List.drop_succ_cons, List.drop_succ_cons, ih]
      congr 1
      omega

theorem enum_drop {α : Type} (l : List α) (n : Nat) :
    l.enum.drop n = List.enumFrom n (l.drop n) := by
  rw [show l.enum = List.enumFrom 0 l from rfl, enumFrom_drop l 0 n, Nat.zero_add]

/-- C9: the visual agent's pre-model hook always discards the first
element of the view produced by the shared cleaning hook before the
base64 rewriting; consequently, on a log with no System message (where
the effective-input Human message is the first element of the reduced
view), that message is absent from the messages handed to the multimodal
model.  (The content hypothesis rules out an accidental textual collision
with the parse-failure replacement text; in the source the effective
message is a distinct object from any rewritten one.) -/
theorem visual_hook_drops_effective_input (L : List Message) (e : Message)
    (hnosys : ∀ m ∈ L, m.role ≠ Role.system)
    (heff : (findEffective L).2.1 = some e)
    (hnotparse : ∀ c : String,
      e.content ≠ "Image data received but could not be parsed: " ++ c) :
    (create_clean_agent_messages_hook "visual" L).messages.head? = some e ∧
    (format_messages_for_multimodal_llm L).1 =
      ((create_clean_agent_messages_hook "visual" L).messages.drop 1).map
        formatForVisual ∧
    ∀ v ∈ (format_messages_for_multimodal_llm L).1, v ≠ toVMessage e := by
  have hidx : findFirstSysIdx L = none := findFirstSysIdx_none hnosys
  have hsys : firstSysMsg L = none := by rw [firstSysMsg, hidx]; rfl
  have hmsgs : (create_clean_agent_messages_hook "visual" L).messages =
      e :: (L.enum.drop (findEffective L).2.2).filterMap
        (keepForAgent "visual" (findFirstSysIdx L)) := by
    rw [hook_messages_eq, hsys, heff]
    rfl
  refine ⟨by rw [hmsgs]; rfl, rfl, ?_⟩
  intro v hv
  have hv' : v ∈ ((L.enum.drop (findEffective L).2.2).filterMap
      (keepForAgent "visual" (findFirstSysIdx L))).map formatForVisual := by
    have hfm : (format_messages_for_multimodal_llm L).1 =
        (((create_clean_agent_messages_hook "visual" L).messages).drop 1).map
          formatForVisual := rfl
    rw [hfm, hmsgs] at hv
    exact hv
  obtain ⟨m, hmk, hfm⟩ := List.mem_map.mp hv'
  obtain ⟨i, hmem, hkeepcond⟩ := kept_mem_cases hmk
  rw [← hfm]
  intro heq
  by_cases hcond : (m.role = Role.tool ∧ m.content ≠ "" ∧
      containsSub m.content.data "base64,".data = true)
  · rw [formatForVisual, if_pos hcond] at heq
    cases h1 : (m.content.splitOn "data:image/")[1]? with
    | none =>
      simp only [h1] at heq
      have hc := congrArg VMessage.content heq
      simp only [toVMessage] at hc
      injection hc with hc'
      exact hnotparse m.content hc'.symm
    | some seg =>
      simp only [h1] at heq
      cases h2 : (seg.splitOn ";base64,")[1]? with
      | none =>
        simp only [h2] at heq
        have hc := congrArg VMessage.content heq
        simp only [toVMessage] at hc
        injection hc with hc'
        exact hnotparse m.content hc'.symm
      | some b64 =>
        simp only [h2] at heq
        have hc := congrArg VMessage.content heq
        simp only [toVMessage] at hc
        cases hc
  · rw [formatForVisual, if_neg hcond] at heq
    have hrole := congrArg VMessage.role heq
    have hname := congrArg VMessage.name heq
    simp only [toVMessage] at hrole hname
    rcases hkeepcond with hn | ⟨hra, -⟩
    · rcases findEffective_cases_proj heff with hsyn | ⟨-, hhr, hnohum⟩
      · rw [hsyn] at hname
        rw [hn] at hname
        simp [humanMsg] at hname
      · have hmrole : m.role = Role.human := by rw [hrole, hhr]
        have hmem' : m ∈ L.drop (findEffective L).2.2 := by
          rw [enum_drop] at hmem
          exact List.snd_mem_of_mem_enumFrom hmem
        exact hnohum m hmem' hmrole
    · have hhr : e.role = Role.human := findEffective_eff_human_proj heff
      rw [hra, hhr] at hrole
      cases hrole

/-- Witness for the visual-agent hook at a concrete log with a delegation
marker and a base64-bearing Tool message. -/
theorem visual_hook_drops_effective_input_witness :
    (create_clean_agent_messages_hook "visual" visLogW).messages.head? =
      some (humanMsg "look") ∧
    (format_messages_for_multimodal_llm visLogW).1 =
      ((create_clean_agent_messages_hook "visual" visLogW).messages.drop 1).map
        formatForVisual ∧
    ∀ v ∈ (format_messages_for_multimodal_llm visLogW).1,
      v ≠ toVMessage (humanMsg "look") :=
  visual_hook_drops_effective_input visLogW (humanMsg "look")
    (by decide) (by decide)
    (by
      intro c hc
      have hl := congrArg String.length hc
      rw [String.length_append] at hl
      have h1 : (humanMsg "look").content.length = 4 := rfl
      have h2 : 4 < ("Image data received but could not be parsed: " : String).length := by
        decide
      omega)

end Gaia
